import Mathlib

/-!
Verification of the persistence layer in `gokart/target.py`.

Shallow embedding conventions:
* a pandas DataFrame is a `Table`: a list of rows together with the byte
  width of one row of `df.values` (so `df.values.nbytes = rows.length * rowBytes`);
* the artifact directory holding the fragment files `data_{i}.pkl` is a `Dir`:
  an association list from the fragment index `i` to the fragment's row list,
  with at most one entry per index (writing a file overwrites the entry);
* a Python call that raises is modelled as `none`;
* `glob.glob` returns the matching file names in an arbitrary, OS-dependent
  order (no sorting in the source); a theorem about `load` therefore takes
  the glob result as an argument and quantifies over every listing that is a
  permutation of the directory's fragment entries.
-/

namespace Gokart

/-- A pandas DataFrame, as far as `LargeDataFrameProcessor` observes it:
its rows in order, and the byte width of one row of `df.values`. -/
structure Table (α : Type) where
  rows : List α
  rowBytes : Nat

/-- Model of `df.values.nbytes`: the byte footprint of the table. -/
def nbytes {α : Type} (df : Table α) : Nat := df.rows.length * df.rowBytes

/-- The artifact directory: fragment index `i` maps to the rows stored in
`data_{i}.pkl`. -/
abbrev Dir (α : Type) := List (Nat × List α)

/-- Write the fragment file with index `i` into the directory: overwrite the
existing entry for `i`, or add a new one. -/
def dirSet {α : Type} : Dir α → Nat → List α → Dir α
  | [], i, c => [(i, c)]
  | p :: rest, i, c => if p.1 = i then (i, c) :: rest else p :: dirSet rest i c

/-- Read the fragment file with index `i` from the directory, if present. -/
def dirLookup {α : Type} : Dir α → Nat → Option (List α)
  | [], _ => none
  | p :: rest, i => if p.1 = i then some p.2 else dirLookup rest i

/-- Model of the `numpy.array_split` section sizes for `n` elements in `k` sections:
`n % k` sections of size `n / k + 1` followed by `k - n % k` of size `n / k`. -/
def sectionSizes (n k : Nat) : List Nat :=
  List.replicate (n % k) (n / k + 1) ++ List.replicate (k - n % k) (n / k)

/-- Cut `[start, start + s₀) , [start + s₀, start + s₀ + s₁) , ...` out of the
index range, one contiguous block per section size (numpy's
`ary[div_points[i] : div_points[i+1]]` over `ary = range(n)`). -/
def rangesOf (start : Nat) : List Nat → List (List Nat)
  | [] => []
  | s :: rest => List.range' start s :: rangesOf (start + s) rest

/-- Model of `np.array_split(range(n), k)`: the index arrays of the `k` sections. -/
def arraySplit (n k : Nat) : List (List Nat) := rangesOf 0 (sectionSizes n k)

/-- The loop body of `LargeDataFrameProcessor.save`: for the `i`-th index
array `idx`, write `df.iloc[idx[0] : idx[-1] + 1]` to `data_{i}.pkl`.
Indexing an empty `idx` raises (`none`); files written before the raise are
not modelled. -/
def writeChunksAux {α : Type} (rows : List α) : Dir α → Nat → List (List Nat) → Option (Dir α)
  | d, _, [] => some d
  | d, i, idx :: rest =>
    match idx.head?, idx.getLast? with
    | some a, some b => writeChunksAux rows (dirSet d i ((rows.drop a).take (b + 1 - a))) (i + 1) rest
    | _, _ => none

/-- Model of `LargeDataFrameProcessor.save(df, file_path)` acting on the artifact
directory `d`.  An empty table writes exactly `data_0.pkl`; otherwise
`split_size = df.values.nbytes // max_byte + 1` (a zero `max_byte` raises
`ZeroDivisionError`, modelled as `none`) and each `array_split` section is
written to its own fragment file. -/
def save {α : Type} (df : Table α) (maxByte : Nat) (d : Dir α) : Option (Dir α) :=
  if df.rows.isEmpty then some (dirSet d 0 [])
  else if maxByte = 0 then none
  else writeChunksAux df.rows d 0 (arraySplit df.rows.length (nbytes df / maxByte + 1))

/-- Model of `LargeDataFrameProcessor.load(file_path)`: glob the fragment
files (`data_*.pkl`) and concatenate them with `pd.concat`, which raises on
an empty list (`none`).  The source performs no sorting and `glob.glob`
returns the matching files in an arbitrary, OS-dependent order, so the
argument here is the glob result itself — the fragment entries in whatever
order the OS listed them; a theorem quantifies over every listing that is a
permutation of the directory's entries. -/
def load {α : Type} : Dir α → Option (List α)
  | [] => none
  | p :: rest => some (((p :: rest).map Prod.snd).flatten)

/-! ### Proof-support definitions -/

/-- The contiguous slices of `rows` described by the section sizes:
slice `i` is `rows[divᵢ : divᵢ + sᵢ]`. -/
def slicesOf {α : Type} (rows : List α) (start : Nat) : List Nat → List (List α)
  | [] => []
  | s :: rest => (rows.drop start).take s :: slicesOf rows (start + s) rest

/-- Write the chunks `cs` to the fragment files `i, i+1, ...` in order. -/
def dirSetSeq {α : Type} (d : Dir α) (i : Nat) : List (List α) → Dir α
  | [] => d
  | c :: cs => dirSetSeq (dirSet d i c) (i + 1) cs

/-! ### Arithmetic of the section sizes -/

theorem length_sectionSizes (n k : Nat) (hk : 0 < k) : (sectionSizes n k).length = k := by
  have h : n % k ≤ k := Nat.le_of_lt (Nat.mod_lt _ hk)
  simp [sectionSizes]
  omega

theorem sum_sectionSizes (n k : Nat) (hk : 0 < k) : (sectionSizes n k).sum = n := by
  have h1 : n % k ≤ k := Nat.le_of_lt (Nat.mod_lt _ hk)
  have h2 : k * (n / k) + n % k = n := Nat.div_add_mod n k
  have e2 : (k - n % k) * (n / k) = k * (n / k) - n % k * (n / k) := Nat.sub_mul _ _ _
  have e3 : n % k * (n / k) ≤ k * (n / k) := Nat.mul_le_mul_right _ h1
  simp [sectionSizes, Nat.mul_succ]
  omega

theorem mem_sectionSizes {n k s : Nat} (h : s ∈ sectionSizes n k) :
    s = n / k ∨ s = n / k + 1 := by
  rcases List.mem_append.1 h with h' | h' <;>
    simp [List.eq_of_mem_replicate h']

theorem pos_of_mem_sectionSizes {n k s : Nat} (hk : 0 < k) (hkn : k ≤ n)
    (h : s ∈ sectionSizes n k) : 0 < s := by
  have hq : 0 < n / k := (Nat.one_le_div_iff hk).2 hkn
  rcases mem_sectionSizes h with h' | h' <;> omega

/-! ### Directory operations -/

theorem dirSet_eq_append {α : Type} {d : Dir α} {i : Nat} (c : List α)
    (h : ∀ p ∈ d, p.1 ≠ i) : dirSet d i c = d ++ [(i, c)] := by
  induction d with
  | nil => rfl
  | cons p rest ih =>
    have hp : p.1 ≠ i := h p (List.mem_cons_self p rest)
    simp [dirSet, hp, ih fun q hq => h q (List.mem_cons_of_mem p hq)]

theorem dirLookup_dirSet_ne {α : Type} (d : Dir α) {i j : Nat} (c : List α) (h : j ≠ i) :
    dirLookup (dirSet d i c) j = dirLookup d j := by
  have h' : ¬ i = j := fun hh => h hh.symm
  induction d with
  | nil => simp [dirSet, dirLookup, h']
  | cons p rest ih =>
    by_cases hp : p.1 = i
    · have hpj : ¬ p.1 = j := by rw [hp]; exact h'
      simp [dirSet, if_pos hp, dirLookup, if_neg h', if_neg hpj]
    · by_cases hj : p.1 = j
      · simp [dirSet, if_neg hp, dirLookup, if_pos hj]
      · simp [dirSet, if_neg hp, dirLookup, if_neg hj, ih]

theorem dirLookup_dirSetSeq_ge {α : Type} (cs : List (List α)) (d : Dir α) (i j : Nat)
    (h : i + cs.length ≤ j) : dirLookup (dirSetSeq d i cs) j = dirLookup d j := by
  induction cs generalizing d i with
  | nil => rfl
  | cons c cs ih =>
    have hj : j ≠ i := by simp at h; omega
    rw [dirSetSeq, ih _ (i + 1) (by simp at h ⊢; omega), dirLookup_dirSet_ne _ _ hj]

theorem mem_of_dirLookup {α : Type} {d : Dir α} {j : Nat} {c : List α}
    (h : dirLookup d j = some c) : (j, c) ∈ d := by
  induction d with
  | nil => simp [dirLookup] at h
  | cons p rest ih =>
    obtain ⟨pa, pb⟩ := p
    by_cases hp : pa = j
    · subst hp
      simp [dirLookup] at h
      subst h
      exact List.mem_cons_self _ _
    · simp [dirLookup, hp] at h
      exact List.mem_cons_of_mem _ (ih h)

theorem dirSetSeq_eq_append {α : Type} (cs : List (List α)) (d : Dir α) (i : Nat)
    (h : ∀ p ∈ d, p.1 < i) :
    dirSetSeq d i cs = d ++ (List.range' i cs.length).zip cs := by
  induction cs generalizing d i with
  | nil => simp [dirSetSeq]
  | cons c cs ih =>
    rw [dirSetSeq, dirSet_eq_append c (fun p hp => Nat.ne_of_lt (h p hp)),
      ih _ (i + 1) ?_, List.length_cons, List.range'_succ]
    · simp
    · intro p hp
      rcases List.mem_append.1 hp with h' | h'
      · exact Nat.lt_succ_of_lt (h p h')
      · simp at h'
        subst h'
        exact Nat.lt_succ_self i

/-! ### The write loop -/

theorem writeChunksAux_rangesOf {α : Type} (sizes : List Nat) (rows : List α) (d : Dir α)
    (i start : Nat) (h : ∀ s ∈ sizes, 0 < s) :
    writeChunksAux rows d i (rangesOf start sizes) =
      some (dirSetSeq d i (slicesOf rows start sizes)) := by
  induction sizes generalizing d i start with
  | nil => rfl
  | cons s rest ih =>
    obtain ⟨m, rfl⟩ := Nat.exists_eq_succ_of_ne_zero (Nat.pos_iff_ne_zero.1 (h s (by simp)))
    rw [rangesOf, writeChunksAux]
    have hh : (List.range' start (m + 1)).head? = some start := by
      rw [List.range'_succ]; rfl
    have hl : (List.range' start (m + 1)).getLast? = some (start + m) := by
      rw [List.range'_concat]
      simp [List.getLast?_concat]
    rw [hh, hl]
    simp only
    rw [ih _ _ _ fun s hs => h s (by simp [hs])]
    have harith : start + m + 1 - start = m + 1 := by omega
    rw [harith, slicesOf, dirSetSeq]

theorem writeChunksAux_none_of_zero {α : Type} (sizes : List Nat) (rows : List α) (d : Dir α)
    (i start : Nat) (h : ∃ s ∈ sizes, s = 0) :
    writeChunksAux rows d i (rangesOf start sizes) = none := by
  induction sizes generalizing d i start with
  | nil => simp at h
  | cons s rest ih =>
    rcases Nat.eq_zero_or_pos s with hs | hs
    · subst hs
      rfl
    · obtain ⟨m, rfl⟩ := Nat.exists_eq_succ_of_ne_zero (Nat.pos_iff_ne_zero.1 hs)
      rw [rangesOf, writeChunksAux]
      have hh : (List.range' start (m + 1)).head? = some start := by
        rw [List.range'_succ]; rfl
      have hl : (List.range' start (m + 1)).getLast? = some (start + m) := by
        rw [List.range'_concat]
        simp [List.getLast?_concat]
      rw [hh, hl]
      simp only
      apply ih
      rcases h with ⟨s', hs', h0⟩
      refine ⟨s', ?_, h0⟩
      subst h0
      simpa [Nat.pos_iff_ne_zero.1 hs] using hs'

/-! ### Slices -/

theorem length_slicesOf {α : Type} (rows : List α) (start : Nat) (sizes : List Nat) :
    (slicesOf rows start sizes).length = sizes.length := by
  induction sizes generalizing start with
  | nil => rfl
  | cons s rest ih => simp [slicesOf, ih]

theorem flatten_slicesOf {α : Type} (rows : List α) (start : Nat) (sizes : List Nat) :
    (slicesOf rows start sizes).flatten = (rows.drop start).take sizes.sum := by
  induction sizes generalizing start with
  | nil => simp [slicesOf]
  | cons s rest ih =>
    rw [slicesOf, List.flatten_cons, ih (start + s), List.sum_cons, List.take_add]
    congr 1
    rw [List.drop_drop]

theorem length_of_mem_slicesOf {α : Type} (rows : List α) (start : Nat) (sizes : List Nat)
    (hfit : start + sizes.sum ≤ rows.length) :
    ∀ c ∈ slicesOf rows start sizes, ∃ s ∈ sizes, c.length = s := by
  induction sizes generalizing start with
  | nil => simp [slicesOf]
  | cons s rest ih =>
    intro c hc
    rcases List.mem_cons.1 hc with hc | hc
    · subst hc
      refine ⟨s, List.mem_cons_self _ _, ?_⟩
      rw [List.length_take, List.length_drop]
      simp only [List.sum_cons] at hfit
      omega
    · obtain ⟨s', hs', hlen⟩ := ih (start + s) (by simp only [List.sum_cons] at hfit; omega) c hc
      exact ⟨s', List.mem_cons_of_mem _ hs', hlen⟩

/-! ### `save` and `load` characterizations -/

theorem save_eq {α : Type} (t : Table α) (m : Nat) (d : Dir α) (hne : t.rows ≠ [])
    (hm : m ≠ 0) (hk : nbytes t / m + 1 ≤ t.rows.length) :
    save t m d = some (dirSetSeq d 0
      (slicesOf t.rows 0 (sectionSizes t.rows.length (nbytes t / m + 1)))) := by
  have hempty : t.rows.isEmpty = false := by
    cases hr : t.rows
    · exact absurd hr hne
    · rfl
  rw [save, hempty]
  simp only [Bool.false_eq_true, if_false, hm, if_neg hm, arraySplit]
  exact writeChunksAux_rangesOf _ _ _ _ _
    fun s hs => pos_of_mem_sectionSizes (Nat.succ_pos _) hk hs

theorem load_some {α : Type} (d : Dir α) (h : d ≠ []) :
    load d = some ((d.map Prod.snd).flatten) := by
  cases d with
  | nil => exact absurd rfl h
  | cons p rest => rfl

/-- The number of fragment files a `save` writes: one for an empty table,
`floor(nbytes / maxByte) + 1` otherwise. -/
def chunkCount {α : Type} (df : Table α) (maxByte : Nat) : Nat :=
  if df.rows.isEmpty then 1 else nbytes df / maxByte + 1

/-! ## Claim theorems: chunked tabular serializer -/

/-- C1, counterexample: `save` of the two-row table `[1, 2]` (one byte per
row, `maxByte = 2`) writes the two fragments `data_0 = [1]`, `data_1 = [2]`;
the source's `load` does not sort and `glob.glob` returns the fragment files
in an arbitrary OS-dependent order, so the listing that names `data_1` first
is admissible, and under it `load` returns `[2, 1]` — not the saved order —
refuting the guarantee that the fragments are always concatenated in
ascending numeric sequence order. -/
theorem C1_counterexample :
    save (⟨[1, 2], 1⟩ : Table Nat) 2 [] = some [(0, [1]), (1, [2])] ∧
    List.Perm [(1, [2]), (0, [1])] [(0, [1]), (1, [2])] ∧
    load [(1, [2]), (0, [1])] = some [2, 1] ∧
    [2, 1] ≠ ([1, 2] : List Nat) := by
  refine ⟨by decide, List.Perm.swap _ _ _, rfl, by decide⟩

/-- C1 (amended): for a non-empty table saved on a fresh directory with
`0 < maxByte` and chunk count at most the row count (so the save succeeds),
`load` succeeds under every order in which the OS may list the fragment
files — every permutation of the directory's entries — and returns a table
with the same row count and the same rows as the saved table up to order;
the row order itself is OS-dependent and not guaranteed. -/
theorem C1_round_trip_amended {α : Type} (t : Table α) (m : Nat) (hm : 0 < m)
    (hne : t.rows ≠ []) (hk : nbytes t / m + 1 ≤ t.rows.length) :
    ∃ d, save t m [] = some d ∧
      ∀ listing : Dir α, listing.Perm d →
        ∃ l, load listing = some l ∧ l.Perm t.rows ∧ l.length = t.rows.length := by
  have hk0 : 0 < nbytes t / m + 1 := Nat.succ_pos _
  set k := nbytes t / m + 1 with hkdef
  set cs := slicesOf t.rows 0 (sectionSizes t.rows.length k) with hcsdef
  have hlen : cs.length = k := by
    rw [hcsdef, length_slicesOf, length_sectionSizes _ _ hk0]
  have hflat : cs.flatten = t.rows := by
    rw [hcsdef, flatten_slicesOf, sum_sectionSizes _ _ hk0, List.drop_zero, List.take_length]
  have hsave : save t m [] = some ((List.range' 0 k).zip cs) := by
    rw [save_eq t m [] hne (Nat.pos_iff_ne_zero.1 hm) hk,
      dirSetSeq_eq_append _ _ _ (by intro p hp; simp at hp), hlen]
    simp
  have hdlen : ((List.range' 0 k).zip cs).length = k := by
    rw [List.length_zip, List.length_range', hlen, Nat.min_self]
  have hsnd : ((List.range' 0 k).zip cs).map Prod.snd = cs :=
    List.map_snd_zip _ _ (by rw [List.length_range', hlen])
  refine ⟨_, hsave, ?_⟩
  intro listing hperm
  have hlne : listing ≠ [] := by
    intro h0
    rw [h0] at hperm
    have hl0 := hperm.length_eq
    rw [hdlen] at hl0
    simp at hl0
    omega
  have h1 := (hperm.map Prod.snd).flatten
  rw [hsnd, hflat] at h1
  exact ⟨_, load_some listing hlne, h1, h1.length_eq⟩

/-- C1 (amended) at a concrete input: 16 rows of one byte each with
`maxByte = 5` (footprint `3.2 × maxByte`, 4 fragments). -/
theorem C1_round_trip_amended_witness :
    ∃ d, save (⟨List.range 16, 1⟩ : Table Nat) 5 [] = some d ∧
      ∀ listing : Dir Nat, listing.Perm d →
        ∃ l, load listing = some l ∧ l.Perm (List.range 16) ∧
          l.length = (List.range 16).length :=
  C1_round_trip_amended ⟨List.range 16, 1⟩ 5 (by decide) (by decide) (by decide)

/-- C2, counterexample: a one-row table with `rowBytes = 2` and `maxByte = 1`
has chunk count `2 / 1 + 1 = 3`, but `save` raises (numpy hands the loop an
empty index array, and `idx[0]` fails) instead of writing 3 fragment files. -/
theorem C2_counterexample :
    nbytes (⟨[0], 2⟩ : Table Nat) / 1 + 1 = 3 ∧
      save (⟨[0], 2⟩ : Table Nat) 1 [] = none := by
  constructor
  · decide
  · decide

/-- C2 (amended): for a non-empty table with `0 < maxByte` whose chunk count
`floor(nbytes / maxByte) + 1` does not exceed the row count, `save` on a fresh
directory succeeds and writes exactly that many sequentially numbered
fragments, whose contents concatenate back to the rows in order and whose
sizes are near-equal (each `rowCount / chunkCount` or one more). -/
theorem C2_chunk_count_amended {α : Type} (t : Table α) (m : Nat) (hm : 0 < m)
    (hne : t.rows ≠ []) (hk : nbytes t / m + 1 ≤ t.rows.length) :
    ∃ d, save t m [] = some d ∧
      d.length = nbytes t / m + 1 ∧
      d.map Prod.fst = List.range (nbytes t / m + 1) ∧
      (d.map Prod.snd).flatten = t.rows ∧
      ∀ c ∈ d.map Prod.snd,
        c.length = t.rows.length / (nbytes t / m + 1) ∨
          c.length = t.rows.length / (nbytes t / m + 1) + 1 := by
  have hk0 : 0 < nbytes t / m + 1 := Nat.succ_pos _
  set k := nbytes t / m + 1 with hkdef
  set cs := slicesOf t.rows 0 (sectionSizes t.rows.length k) with hcsdef
  have hlen : cs.length = k := by
    rw [hcsdef, length_slicesOf, length_sectionSizes _ _ hk0]
  have hflat : cs.flatten = t.rows := by
    rw [hcsdef, flatten_slicesOf, sum_sectionSizes _ _ hk0, List.drop_zero, List.take_length]
  have hsave : save t m [] = some ((List.range' 0 k).zip cs) := by
    rw [save_eq t m [] hne (Nat.pos_iff_ne_zero.1 hm) hk,
      dirSetSeq_eq_append _ _ _ (by intro p hp; simp at hp), hlen]
    simp
  have hsnd : ((List.range' 0 k).zip cs).map Prod.snd = cs :=
    List.map_snd_zip _ _ (by rw [List.length_range', hlen])
  refine ⟨_, hsave, ?_, ?_, ?_, ?_⟩
  · rw [List.length_zip, List.length_range', hlen, Nat.min_self]
  · rw [List.map_fst_zip _ _ (by rw [List.length_range', hlen]), List.range_eq_range']
  · rw [hsnd, hflat]
  · rw [hsnd]
    intro c hc
    obtain ⟨s, hs, hcl⟩ := length_of_mem_slicesOf t.rows 0 (sectionSizes t.rows.length k)
      (by rw [sum_sectionSizes _ _ hk0]; omega) c hc
    rcases mem_sectionSizes hs with h' | h' <;> [left; right] <;> rw [hcl, h']

/-- C2 (amended) at a concrete input: 16 one-byte rows, `maxByte = 5`,
chunk count `16 / 5 + 1 = 4 ≤ 16`. -/
theorem C2_chunk_count_amended_witness :
    ∃ d, save (⟨List.range 16, 1⟩ : Table Nat) 5 [] = some d ∧
      d.length = nbytes (⟨List.range 16, 1⟩ : Table Nat) / 5 + 1 ∧
      d.map Prod.fst = List.range (nbytes (⟨List.range 16, 1⟩ : Table Nat) / 5 + 1) ∧
      (d.map Prod.snd).flatten = List.range 16 ∧
      ∀ c ∈ d.map Prod.snd,
        c.length = (List.range 16).length / (nbytes (⟨List.range 16, 1⟩ : Table Nat) / 5 + 1) ∨
          c.length = (List.range 16).length / (nbytes (⟨List.range 16, 1⟩ : Table Nat) / 5 + 1) + 1 :=
  C2_chunk_count_amended ⟨List.range 16, 1⟩ 5 (by decide) (by decide) (by decide)

/-- C4: `load` on an artifact directory with no fragment file fails (the glob
finds nothing and `pd.concat` of an empty list raises; the spec's taxonomy
files this failure under NotFound). -/
theorem C4_load_no_fragments {α : Type} : load ([] : Dir α) = none := rfl

/-- C9: saving an empty table writes exactly the single fragment `data_0.pkl`
holding the empty table, for every `maxByte` (even zero — the empty branch
runs before the division), and a subsequent `load` on that fresh directory
returns an empty table. -/
theorem C9_empty_table_chunking {α : Type} (t : Table α) (m : Nat) (h : t.rows = []) :
    save t m [] = some [(0, [])] ∧ (save t m []).bind load = some ([] : List α) := by
  have hempty : t.rows.isEmpty = true := by rw [h]; rfl
  have hs : save t m [] = some [(0, [])] := by
    simp only [save, hempty, if_true]
    rfl
  refine ⟨hs, ?_⟩
  rw [hs]
  rfl

/-- C9 at a concrete input, with `maxByte = 0` to exercise "regardless of
`maxBytes`". -/
theorem C9_empty_table_chunking_witness :
    save (⟨[], 3⟩ : Table Nat) 0 [] = some [(0, [])] ∧
      (save (⟨[], 3⟩ : Table Nat) 0 []).bind load = some ([] : List Nat) :=
  C9_empty_table_chunking ⟨[], 3⟩ 0 rfl

/-- C10: a successful `save` writes only the fragment files numbered below its
own chunk count — every fragment with an index at or above it is left exactly
as it was — and any row of such a leftover (stale) fragment is concatenated
into the result of a subsequent `load` as well. -/
theorem C10_stale_fragments {α : Type} (t : Table α) (m : Nat) (d d' : Dir α)
    (hs : save t m d = some d') :
    (∀ j, chunkCount t m ≤ j → dirLookup d' j = dirLookup d j) ∧
    (∀ j c, chunkCount t m ≤ j → dirLookup d j = some c →
      ∀ listing l, listing.Perm d' → load listing = some l → ∀ x ∈ c, x ∈ l) := by
  have hframe : ∀ j, chunkCount t m ≤ j → dirLookup d' j = dirLookup d j := by
    intro j hj
    by_cases hempty : t.rows.isEmpty
    · rw [save, if_pos hempty, Option.some_inj] at hs
      subst hs
      have hj1 : j ≠ 0 := by
        unfold chunkCount at hj
        rw [if_pos hempty] at hj
        omega
      exact dirLookup_dirSet_ne d _ hj1
    · rw [save, if_neg hempty] at hs
      by_cases hm : m = 0
      · rw [if_pos hm] at hs
        exact absurd hs (by simp)
      · rw [if_neg hm] at hs
        set k := nbytes t / m + 1 with hkdef
        by_cases hz : ∀ s ∈ sectionSizes t.rows.length k, 0 < s
        · rw [arraySplit, writeChunksAux_rangesOf _ _ _ _ _ hz, Option.some_inj] at hs
          subst hs
          apply dirLookup_dirSetSeq_ge
          rw [length_slicesOf, length_sectionSizes _ _ (Nat.succ_pos _)]
          unfold chunkCount at hj
          rw [if_neg hempty] at hj
          omega
        · push_neg at hz
          obtain ⟨s, hsmem, hs0⟩ := hz
          rw [arraySplit, writeChunksAux_none_of_zero _ _ _ _ _ ⟨s, hsmem, by omega⟩] at hs
          exact absurd hs (by simp)
  refine ⟨hframe, ?_⟩
  intro j c hj hcd listing l hperm hload x hx
  have hcd' : dirLookup d' j = some c := (hframe j hj).trans hcd
  have hmem : (j, c) ∈ d' := mem_of_dirLookup hcd'
  have hmeml : (j, c) ∈ listing := hperm.mem_iff.2 hmem
  have hlne : listing ≠ [] := by
    intro h0
    rw [h0] at hmeml
    simp at hmeml
  rw [load_some _ hlne, Option.some_inj] at hload
  subst hload
  exact List.mem_flatten.2 ⟨c, List.mem_map.2 ⟨(j, c), hmeml, rfl⟩, hx⟩

/-- C10 at a concrete input: a 3-fragment save followed by a 1-fragment save
to the same directory leaves fragment 2 in place, and its row 3 shows up in
the loaded result — here under a listing that names the fragments in reverse
order, giving `[3, 2, 9]`. -/
theorem C10_stale_fragments_witness :
    dirLookup [(0, [9]), (1, [2]), (2, [3])] 2 = dirLookup [(0, [1]), (1, [2]), (2, [3])] 2 ∧
      (3 : Nat) ∈ [3, 2, 9] :=
  have h := C10_stale_fragments (⟨[9], 1⟩ : Table Nat) 5
    [(0, [1]), (1, [2]), (2, [3])] [(0, [9]), (1, [2]), (2, [3])] (by decide)
  ⟨h.1 2 (by decide),
    h.2 2 [3] (by decide) (by decide) [(2, [3]), (1, [2]), (0, [9])] [3, 2, 9]
      (by decide) rfl 3 (by decide)⟩

/-!
## Archive model target (`ModelTarget`)

The scratch (temporary) directory is modelled by its set of file names
(`Option (List String)`, `none` when the directory is absent), and each
collaborator call that can raise is driven by a flag; a raise aborts the
remaining steps, exactly as an uncaught Python exception does — the code has
no `try/finally` around the scratch cleanup.
-/

/-- Write a file into the scratch directory (a second write of the same name
replaces the file, so the name set gains nothing). -/
def insertFile (f : String) (fs : List String) : List String :=
  if f ∈ fs then fs else fs ++ [f]

/-- Name from `ModelTarget._model_path`: the fixed-name model payload file. -/
def modelFileName : String := "model.pkl"

/-- Name from `ModelTarget._load_function_path`: the fixed-name reconstruction-function
file. -/
def loadFunctionFileName : String := "load_function.pkl"

/-- Which collaborator calls of `ModelTarget._dump` raise. -/
structure DumpRaises where
  saveRaises : Bool
  nestedDumpRaises : Bool
  archiveRaises : Bool

/-- Observable outcome of `ModelTarget._dump`: the entries of the archive
written (`none` when the dump raised before `make_archive`) and the final
scratch-directory state (`none` when removed/absent). -/
structure DumpOutcome where
  archive : Option (List String)
  scratch : Option (List String)

/-- Model of `ModelTarget._dump` step by step: `_make_temporary_directory` (`makedirs`
with `exist_ok=True`, keeping any existing contents), `save_function` into
`model.pkl`, the nested single-file dump of the reconstruction function into
`load_function.pkl`, `make_archive` of the whole scratch directory, then
`_remove_temporary_directory`.  There is no `try/finally`: a raise leaves the
scratch directory behind. -/
def modelDump (env : DumpRaises) (scratch0 : Option (List String)) : DumpOutcome :=
  let fs0 := scratch0.getD []
  if env.saveRaises then ⟨none, some fs0⟩
  else
    let fs1 := insertFile modelFileName fs0
    if env.nestedDumpRaises then ⟨none, some fs1⟩
    else
      let fs2 := insertFile loadFunctionFileName fs1
      if env.archiveRaises then ⟨none, some fs2⟩
      else ⟨some fs2, none⟩

/-- Observable outcome of `ModelTarget._load`: the reconstructed value
(`none` when the load raised), the `_load_function` attribute afterwards,
whether the scratch directory was removed, and whether the persisted
reconstruction-function file was read from storage. -/
structure LoadOutcome (F M : Type) where
  result : Option M
  loadFunctionField : Option F
  scratchRemoved : Bool
  readLoadFunctionFile : Bool

/-- Model of `ModelTarget._load` after `unpack_archive`:
`self._load_function = self._load_function or make_target(...).load()`
(the persisted function is read from storage only when the attribute is
falsy, and the attribute is reassigned), then the resolved function runs on
the model file (`runFn`, `none` when it raises), and only on success is the
scratch directory removed. -/
def modelLoad {F M : Type} (runFn : F → Option M) (fld : Option F) (persisted : F) :
    LoadOutcome F M :=
  match fld with
  | some f => ⟨runFn f, some f, (runFn f).isSome, false⟩
  | none => ⟨runFn persisted, some persisted, (runFn persisted).isSome, true⟩

theorem mem_insertFile {f g : String} {fs : List String} (h : g ∈ insertFile f fs) :
    g = f ∨ g ∈ fs := by
  unfold insertFile at h
  by_cases hf : f ∈ fs
  · rw [if_pos hf] at h
    exact Or.inr h
  · rw [if_neg hf] at h
    rcases List.mem_append.1 h with h' | h'
    · exact Or.inr h'
    · simp at h'
      exact Or.inl h'

theorem self_mem_insertFile (f : String) (fs : List String) : f ∈ insertFile f fs := by
  unfold insertFile
  by_cases hf : f ∈ fs
  · rw [if_pos hf]
    exact hf
  · rw [if_neg hf]
    simp

theorem mem_insertFile_of_mem (f : String) {g : String} {fs : List String} (h : g ∈ fs) :
    g ∈ insertFile f fs := by
  unfold insertFile
  by_cases hf : f ∈ fs
  · rwa [if_pos hf]
  · rw [if_neg hf]
    exact List.mem_append_left _ h

/-! ## Claim theorems: archive model target -/

/-- C3: the code contradicts the spec's cleanup invariant — on each failing
exit path of `_dump` (save function, nested dump, archiving) the scratch
directory is left behind rather than removed, and a failing reconstruction
function in `_load` likewise skips the removal.  (The spec demands removal on
every exit path; the code has no `try/finally`.) -/
theorem C3_scratch_cleanup_code_bug :
    ((modelDump ⟨true, false, false⟩ none).archive = none ∧
      (modelDump ⟨true, false, false⟩ none).scratch = some []) ∧
    ((modelDump ⟨false, true, false⟩ none).archive = none ∧
      (modelDump ⟨false, true, false⟩ none).scratch = some [modelFileName]) ∧
    ((modelDump ⟨false, false, true⟩ none).archive = none ∧
      (modelDump ⟨false, false, true⟩ none).scratch =
        some [modelFileName, loadFunctionFileName]) ∧
    ((modelLoad (fun _ : Nat => (none : Option Nat)) (some 5) 7).result = none ∧
      (modelLoad (fun _ : Nat => (none : Option Nat)) (some 5) 7).scratchRemoved = false) := by
  refine ⟨⟨rfl, rfl⟩, ⟨rfl, rfl⟩, ⟨rfl, ?_⟩, rfl, rfl⟩
  decide

/-- C5, counterexample: an archive target constructed without a
reconstruction function does not stay stateless — `_load` assigns the loaded
function to `self._load_function`, so the field changes from `None`, and a
second `load()` neither re-reads the persisted reconstruction-function file
nor sees a newer persisted value (it returns the cached one). -/
theorem C5_counterexample :
    (modelLoad (fun f : Nat => some f) (none : Option Nat) 7).loadFunctionField ≠ none ∧
    (modelLoad (fun f : Nat => some f)
      (modelLoad (fun f : Nat => some f) (none : Option Nat) 7).loadFunctionField
      9).readLoadFunctionFile = false ∧
    (modelLoad (fun f : Nat => some f)
      (modelLoad (fun f : Nat => some f) (none : Option Nat) 7).loadFunctionField
      9).result = some 7 := by
  refine ⟨?_, rfl, rfl⟩
  decide

/-- C5 (amended): `load()` leaves the target's fields unchanged except for the
lazy binding of `_load_function`: when the target was constructed without a
reconstruction function, the first `load()` reads the persisted one and caches
it in the field, and every later `load()` reuses the cache without touching
storage; when a function was supplied at construction, the field keeps it and
the persisted file is never read. -/
theorem C5_statelessness_amended {F M : Type} (runFn : F → Option M) (p q : F) :
    (modelLoad runFn none p).loadFunctionField = some p ∧
    (modelLoad runFn none p).readLoadFunctionFile = true ∧
    (modelLoad runFn (modelLoad runFn none p).loadFunctionField q).readLoadFunctionFile
      = false ∧
    (modelLoad runFn (modelLoad runFn none p).loadFunctionField q).result = runFn p ∧
    ∀ f : F, (modelLoad runFn (some f) p).loadFunctionField = some f ∧
      (modelLoad runFn (some f) p).readLoadFunctionFile = false ∧
      modelLoad runFn (some f) p = modelLoad runFn (some f) q :=
  ⟨rfl, rfl, rfl, rfl, fun _ => ⟨rfl, rfl, rfl⟩⟩

/-- C7, counterexample: when the scratch directory already holds a file
(`junk`) when the dump begins — which the leaky failure paths make possible —
the archive of a successful dump contains that third entry besides the two
fixed-name payloads, refuting "exactly two entries regardless of what the
scratch directory contained". -/
theorem C7_counterexample :
    "junk" ∈ ((modelDump ⟨false, false, false⟩ (some ["junk"])).archive).getD [] ∧
      "junk" ≠ modelFileName ∧ "junk" ≠ loadFunctionFileName := by
  refine ⟨?_, ?_, ?_⟩ <;> decide

/-- C7 (amended): a successful dump archives the scratch directory as one
compressed file whose entries always include the two fixed-name payloads
(`model.pkl`, `load_function.pkl`) and nothing beyond them and the files the
scratch directory held before the dump began; when the scratch directory was
absent beforehand the archive holds exactly the two fixed-name entries.  The
scratch directory is removed on this (successful) path. -/
theorem C7_archive_shape_amended (env : DumpRaises) (scratch0 : Option (List String))
    (h1 : env.saveRaises = false) (h2 : env.nestedDumpRaises = false)
    (h3 : env.archiveRaises = false) :
    ∃ a, (modelDump env scratch0).archive = some a ∧
      modelFileName ∈ a ∧ loadFunctionFileName ∈ a ∧
      (∀ f ∈ a, f = modelFileName ∨ f = loadFunctionFileName ∨ f ∈ scratch0.getD []) ∧
      (scratch0 = none → a = [modelFileName, loadFunctionFileName]) ∧
      (modelDump env scratch0).scratch = none := by
  obtain ⟨e1, e2, e3⟩ := env
  simp only at h1 h2 h3
  subst h1
  subst h2
  subst h3
  refine ⟨insertFile loadFunctionFileName (insertFile modelFileName (scratch0.getD [])),
    rfl, ?_, ?_, ?_, ?_, rfl⟩
  · exact mem_insertFile_of_mem _ (self_mem_insertFile _ _)
  · exact self_mem_insertFile _ _
  · intro f hf
    rcases mem_insertFile hf with h' | h'
    · exact Or.inr (Or.inl h')
    · rcases mem_insertFile h' with h'' | h''
      · exact Or.inl h''
      · exact Or.inr (Or.inr h'')
  · intro h0
    subst h0
    rfl

/-- C7 (amended) at a concrete input: a dump with no failures starting from an
absent scratch directory. -/
theorem C7_archive_shape_amended_witness :
    ∃ a, (modelDump ⟨false, false, false⟩ none).archive = some a ∧
      modelFileName ∈ a ∧ loadFunctionFileName ∈ a ∧
      (∀ f ∈ a, f = modelFileName ∨ f = loadFunctionFileName ∨
        f ∈ (none : Option (List String)).getD []) ∧
      ((none : Option (List String)) = none → a = [modelFileName, loadFunctionFileName]) ∧
      (modelDump ⟨false, false, false⟩ none).scratch = none :=
  C7_archive_shape_amended ⟨false, false, false⟩ none rfl rfl rfl

/-! ## Target factory path derivation (`_make_file_path`, `make_target`) -/

/-- Python `str.rfind` body: fold left keeping the highest index at which the
character occurs, `-1` when it never does. -/
def rfindAux (c : Char) : List Char → Nat → Int → Int
  | [], _, acc => acc
  | x :: xs, i, acc => rfindAux c xs (i + 1) (if x = c then (i : Int) else acc)

/-- Python `str.rfind`. -/
def rfind (s : String) (c : Char) : Int := rfindAux c s.toList 0 (-1)

/-- Model of `os.path.splitext` (posixpath, separator `/`, extension separator `.`):
when the last dot lies after the last separator and some character strictly
between them is not a dot, split there; otherwise the extension is empty. -/
def splitext (p : String) : String × String :=
  let l := p.toList
  let sepIndex := rfind p '/'
  let dotIndex := rfind p '.'
  if sepIndex < dotIndex then
    let start := (sepIndex + 1).toNat
    if ((l.drop start).take (dotIndex.toNat - start)).any (fun ch => ch ≠ '.') then
      (String.mk (l.take dotIndex.toNat), String.mk (l.drop dotIndex.toNat))
    else (p, "")
  else (p, "")

/-- Model of `_make_file_path(original_path, unique_id)`: with a unique id, rebuild the
path as `base + '_' + unique_id + extension`; without one, leave it alone. -/
def make_file_path (originalPath : String) (uniqueId : Option String) : String :=
  match uniqueId with
  | some uid => (splitext originalPath).1 ++ "_" ++ uid ++ (splitext originalPath).2
  | none => originalPath

/-- The final path of the target returned by `make_target(file_path,
unique_id, ...)`: the factory rewrites the path with `_make_file_path` and the
single-file target's `path()` hands back the backend handle's path, which is
that rewritten path.  The derivation is a pure function of
`(file_path, unique_id)`, so repeated calls with the same inputs agree by
construction. -/
def make_target_path (filePath : String) (uniqueId : Option String) : String :=
  make_file_path filePath uniqueId

theorem string_mk_append (a b : List Char) : String.mk a ++ String.mk b = String.mk (a ++ b) :=
  rfl

theorem string_length_append (a b : String) : (a ++ b).length = a.length + b.length := by
  obtain ⟨la⟩ := a
  obtain ⟨lb⟩ := b
  show (String.mk (la ++ lb)).length = _
  simp [String.length]

theorem splitext_append (p : String) : (splitext p).1 ++ (splitext p).2 = p := by
  obtain ⟨l⟩ := p
  unfold splitext
  simp only
  split
  · split
    · rw [string_mk_append, List.take_append_drop]
      rfl
    · rw [string_mk_append, List.append_nil]
  · rw [string_mk_append, List.append_nil]

/-! ## Claim theorem: path disambiguation -/

/-- C8: `make_target` with a run id injects `_runId` before the file
extension (the extension splitting recomposes the original path), the result
differs from the path obtained without a run id, and without a run id the
path is untouched; the derivation is deterministic, being a pure function of
its inputs. -/
theorem C8_path_disambiguation (p uid : String) :
    make_target_path p (some uid) = (splitext p).1 ++ "_" ++ uid ++ (splitext p).2 ∧
    (splitext p).1 ++ (splitext p).2 = p ∧
    make_target_path p (some uid) ≠ make_target_path p none ∧
    make_target_path p none = p := by
  refine ⟨rfl, splitext_append p, ?_, rfl⟩
  intro heq
  have hlen := congrArg String.length heq
  have h2 := congrArg String.length (splitext_append p)
  rw [string_length_append] at h2
  have h1 : ("_" : String).length = 1 := rfl
  show False
  rw [show make_target_path p none = p from rfl] at hlen
  rw [show make_target_path p (some uid) =
    (splitext p).1 ++ "_" ++ uid ++ (splitext p).2 from rfl] at hlen
  rw [string_length_append, string_length_append, string_length_append, h1] at hlen
  omega

end Gokart
